import Mathlib

/-!
Verification of the Wordle-solver engine of this repository.

The embedding translates the engine of `server.py` (pattern computation,
candidate filtering, entropy scoring, ranking, phase strategy, candidate
analysis, the session operations) and, where claims refer to them, the
parallel implementations in `src/mcp_server/engine.py` and
`src/mcp_server/server.py`.

Modelling conventions:
* Python strings of letters are `List Char` (`Wd`); feedback symbols are the
  inductive `Fb` (source letters G / Y / K).
* Python floats are modelled as real numbers (`ℝ`); the integer / rational
  arithmetic of the diversity heuristic is modelled over `ℚ`.
* `raise` is modelled with `Except` / `Option` return types.
* Python dicts keyed by patterns or letters are modelled by their key set
  (`List.toFinset`) together with the count function the source maintains.
-/

/-- Feedback symbol of one board cell: `G` (green, Match), `Y` (yellow,
Present), `K` (gray, Absent), exactly the three codes of `server.py`. -/
inductive Fb : Type
  | G : Fb
  | Y : Fb
  | K : Fb
deriving DecidableEq, Fintype, Repr

/-- Words (Python 5-letter strings) as lists of characters. -/
abbrev Wd : Type := List Char

/-- First pass of `server.py::_pattern` (lines 113-119): for every position
that is not an exact match, the answer letter is added to the running
`remaining` per-letter pool.  `initRemaining l c` is the count the Python
dict `remaining` holds for letter `c` after the first pass over the zipped
guess/answer pairs `l`. -/
def initRemaining : List (Char × Char) → Char → Nat
  | [], _ => 0
  | (gi, ai) :: rest, c =>
    if gi = ai then initRemaining rest c
    else if ai = c then initRemaining rest c + 1
    else initRemaining rest c

/-- Second pass of `server.py::_pattern` (lines 121-131): left to right over
the zipped guess/answer pairs, an exact match stays `G`; otherwise the guess
letter is `Y` when the remaining pool still holds a positive count for it
(which is then decremented) and `K` otherwise. -/
def secondPass : List (Char × Char) → (Char → Nat) → List Fb
  | [], _ => []
  | (gi, ai) :: rest, rem =>
    if gi = ai then Fb.G :: secondPass rest rem
    else if 0 < rem gi then
      Fb.Y :: secondPass rest (fun c => if c = gi then rem c - 1 else rem c)
    else Fb.K :: secondPass rest rem

/-- `server.py::_pattern`: the 5-symbol Wordle feedback pattern of a guess
against an answer (two passes, repeated letters handled via the remaining
pool). -/
def pattern (guess answer : Wd) : List Fb :=
  secondPass (guess.zip answer) (initRemaining (guess.zip answer))

/-- `src/mcp_server/engine.py::pattern_for_guess`: same two-pass algorithm
(greens first with a `used` mask, then yellows against the `Counter` of the
unmatched answer letters, left to right), after lowercasing both words. -/
def pattern_for_guess (guess answer : Wd) : List Fb :=
  pattern (guess.map Char.toLower) (answer.map Char.toLower)

/-- Core of `server.py::_filter_by_feedback` (lines 156-160), after the
feedback string has been normalised to symbols: keep exactly the candidate
answers that would have produced the observed pattern for the guess. -/
def filterByPattern (words : List Wd) (guess : Wd) (fb : List Fb) : List Wd :=
  words.filter (fun ans => decide (pattern guess ans = fb))

/-- `src/mcp_server/engine.py::apply_feedback_to_candidates`, after the
feedback string (already uppercased by the caller) has been normalised to
symbols. -/
def apply_feedback_to_candidates (candidates : List Wd) (guess : Wd) (fb : List Fb) :
    List Wd :=
  candidates.filter (fun w => decide (pattern_for_guess guess w = fb))

def wCRATE : Wd := ['c', 'r', 'a', 't', 'e']

def wCRANE : Wd := ['c', 'r', 'a', 'n', 'e']

def wGRADE : Wd := ['g', 'r', 'a', 'd', 'e']

/-- Spec scenario (section 8): crate against crane yields
Match-Match-Match-Absent-Match. -/
theorem pattern_crate_crane_scenario :
    pattern wCRATE wCRANE = [Fb.G, Fb.G, Fb.G, Fb.K, Fb.G] := by decide

/-- Spec scenario (section 4.1): sassy against mesas must not over-credit
the repeated letter s. -/
theorem pattern_sassy_mesas_scenario :
    pattern ['s', 'a', 's', 's', 'y'] ['m', 'e', 's', 'a', 's'] =
      [Fb.Y, Fb.Y, Fb.G, Fb.K, Fb.K] := by decide

/-- Claim C1: for every candidate list, guess and pattern, filtering returns
exactly the order-preserving subsequence of the candidates whose pattern
against the guess equals the observed one; in particular an answer present in
the candidates always survives filtering by its own pattern.  Stated for both
`server.py::_filter_by_feedback` and
`src/mcp_server/engine.py::apply_feedback_to_candidates`. -/
theorem c1_filter_exact_subsequence (cands : List Wd) (guess : Wd) (p : List Fb) :
    (filterByPattern cands guess p).Sublist cands ∧
    (∀ w : Wd, w ∈ filterByPattern cands guess p ↔ w ∈ cands ∧ pattern guess w = p) ∧
    (∀ a : Wd, a ∈ cands → a ∈ filterByPattern cands guess (pattern guess a)) ∧
    (apply_feedback_to_candidates cands guess p).Sublist cands ∧
    (∀ w : Wd, w ∈ apply_feedback_to_candidates cands guess p ↔
      w ∈ cands ∧ pattern_for_guess guess w = p) ∧
    (∀ a : Wd, a ∈ cands →
      a ∈ apply_feedback_to_candidates cands guess (pattern_for_guess guess a)) := by
  refine ⟨List.filter_sublist _, ?_, ?_, List.filter_sublist _, ?_, ?_⟩
  · intro w
    simp [filterByPattern, List.mem_filter]
  · intro a ha
    simp [filterByPattern, List.mem_filter, ha]
  · intro w
    simp [apply_feedback_to_candidates, List.mem_filter]
  · intro a ha
    simp [apply_feedback_to_candidates, List.mem_filter, ha]

/-- Witness for C1 at the spec scenario: with candidates crate / crane /
grade, the true answer crane survives filtering by its own pattern for guess
crate. -/
theorem c1_filter_exact_subsequence_witness :
    wCRANE ∈ filterByPattern [wCRATE, wCRANE, wGRADE] wCRATE (pattern wCRATE wCRANE) :=
  (c1_filter_exact_subsequence [wCRATE, wCRANE, wGRADE] wCRATE
    (pattern wCRATE wCRANE)).2.2.1 wCRANE (by decide)

/-- Number of `G` symbols produced by the second pass: exactly the zipped
positions where guess and answer letters agree (the pool `rem` is
irrelevant to greens). -/
theorem secondPass_count_G (l : List (Char × Char)) (rem : Char → Nat) :
    (secondPass l rem).count Fb.G = l.countP (fun p => decide (p.1 = p.2)) := by
  induction l generalizing rem with
  | nil => simp [secondPass]
  | cons hd tl ih =>
    obtain ⟨gi, ai⟩ := hd
    by_cases h : gi = ai
    · simp [secondPass, h, List.count_cons, List.countP_cons, ih]
    · by_cases h2 : 0 < rem gi
      · simp [secondPass, h, h2, List.count_cons, List.countP_cons, ih]
      · simp [secondPass, h, h2, List.count_cons, List.countP_cons, ih]
/-- Invariant of the second pass: positions credited `G` or `Y` to a letter
`x` are bounded by the exact matches on `x` plus the remaining pool for
`x`. -/
theorem secondPass_letter_bound (x : Char) (l : List (Char × Char)) (rem : Char → Nat) :
    ((l.map Prod.fst).zip (secondPass l rem)).countP
        (fun q => decide (q.1 = x ∧ ¬ q.2 = Fb.K))
      ≤ l.countP (fun p => decide (p.1 = p.2 ∧ p.2 = x)) + rem x := by
  induction l generalizing rem with
  | nil => simp [secondPass]
  | cons hd tl ih =>
    obtain ⟨gi, ai⟩ := hd
    by_cases h : gi = ai
    · have hih := ih rem
      subst h
      simp only [secondPass, if_pos rfl, List.map_cons, List.zip_cons_cons,
        List.countP_cons]
      by_cases hx : gi = x
      · subst hx
        simp at hih ⊢
        omega
      · simp [hx] at hih ⊢
        omega
    · by_cases h2 : 0 < rem gi
      · have hih := ih (fun c => if c = gi then rem c - 1 else rem c)
        simp only [secondPass, if_neg h, if_pos h2, List.map_cons,
          List.zip_cons_cons, List.countP_cons]
        by_cases hx : gi = x
        · subst hx
          have hrem : (if gi = gi then rem gi - 1 else rem gi) = rem gi - 1 := by simp
          rw [hrem] at hih
          simp at hih ⊢
          omega
        · have hxg : ¬ x = gi := fun hh => hx hh.symm
          have hrem : (if x = gi then rem x - 1 else rem x) = rem x := by simp [hxg]
          rw [hrem] at hih
          simp [hx] at hih ⊢
          omega
      · have hih := ih rem
        simp only [secondPass, if_neg h, if_neg h2, List.map_cons,
          List.zip_cons_cons, List.countP_cons]
        by_cases hx : gi = x
        · subst hx
          simp at hih ⊢
          omega
        · simp [hx] at hih ⊢
          omega

/-- The first-pass pool for letter `x` is the number of unmatched zipped
positions whose answer letter is `x`. -/
theorem initRemaining_eq_countP (l : List (Char × Char)) (x : Char) :
    initRemaining l x = l.countP (fun p => decide (¬ p.1 = p.2 ∧ p.2 = x)) := by
  induction l with
  | nil => simp [initRemaining]
  | cons hd tl ih =>
    obtain ⟨gi, ai⟩ := hd
    by_cases h : gi = ai
    · simp [initRemaining, h, List.countP_cons, ih]
    · by_cases hax : ai = x
      · subst hax
        simp [initRemaining, h, List.countP_cons, ih]
      · simp [initRemaining, h, hax, List.countP_cons, ih]

/-- Splitting the count of zipped positions whose answer letter is `x` into
matched and unmatched ones. -/
theorem countP_pair_split (l : List (Char × Char)) (x : Char) :
    l.countP (fun p => decide (p.2 = x)) =
      l.countP (fun p => decide (p.1 = p.2 ∧ p.2 = x)) +
      l.countP (fun p => decide (¬ p.1 = p.2 ∧ p.2 = x)) := by
  induction l with
  | nil => simp
  | cons hd tl ih =>
    obtain ⟨u, v⟩ := hd
    by_cases h2 : v = x
    · subst h2
      by_cases h1 : u = v
      · subst h1
        simp [List.countP_cons, ih]
        omega
      · simp [List.countP_cons, h1, ih]
        omega
    · by_cases h1 : u = v <;> simp [List.countP_cons, h1, h2, ih]

/-- `List.count` as a `countP` with a decidable-equality predicate. -/
theorem count_eq_countP_decide (l : List Char) (x : Char) :
    l.count x = l.countP (fun c => decide (c = x)) := by
  induction l with
  | nil => rfl
  | cons hd tl ih => by_cases h : hd = x <;> simp [List.count_cons, List.countP_cons, h, ih]

/-- Claim C3: for 5-letter words `g`, `a`, the pattern has exactly as many
Match (`G`) symbols as positions where `g` and `a` agree, and for every
letter `x` the number of positions whose guess letter is `x` and whose
symbol is Match or Present never exceeds the occurrence count of `x` in
`a`. -/
theorem c3_pattern_match_and_letter_counts (g a : Wd) (hg : g.length = 5)
    (ha : a.length = 5) :
    (pattern g a).count Fb.G = (g.zip a).countP (fun p => decide (p.1 = p.2)) ∧
    ∀ x : Char,
      (g.zip (pattern g a)).countP (fun q => decide (q.1 = x ∧ ¬ q.2 = Fb.K))
        ≤ a.count x := by
  refine ⟨secondPass_count_G _ _, fun x => ?_⟩
  have hfst : (g.zip a).map Prod.fst = g := List.map_fst_zip g a (by omega)
  have hsnd : (g.zip a).map Prod.snd = a := List.map_snd_zip g a (by omega)
  have kb := secondPass_letter_bound x (g.zip a) (initRemaining (g.zip a))
  rw [hfst] at kb
  have hcount : a.count x = (g.zip a).countP (fun p => decide (p.2 = x)) := by
    calc a.count x = ((g.zip a).map Prod.snd).count x := by rw [hsnd]
      _ = ((g.zip a).map Prod.snd).countP (fun c => decide (c = x)) :=
          count_eq_countP_decide _ _
      _ = (g.zip a).countP (fun p => decide (p.2 = x)) := by
          rw [List.countP_map]
          rfl
  rw [hcount, countP_pair_split (g.zip a) x, ← initRemaining_eq_countP]
  exact kb

def wSASSY : Wd := ['s', 'a', 's', 's', 'y']

def wMESAS : Wd := ['m', 'e', 's', 'a', 's']

/-- Witness for C3 at the spec repeated-letter scenario guess sassy versus
answer mesas, instantiated at the letter s. -/
theorem c3_pattern_match_and_letter_counts_witness :
    (pattern wSASSY wMESAS).count Fb.G =
        (wSASSY.zip wMESAS).countP (fun p => decide (p.1 = p.2)) ∧
    (wSASSY.zip (pattern wSASSY wMESAS)).countP
        (fun q => decide (q.1 = 's' ∧ ¬ q.2 = Fb.K)) ≤ wMESAS.count 's' :=
  ⟨(c3_pattern_match_and_letter_counts wSASSY wMESAS (by decide) (by decide)).1,
   (c3_pattern_match_and_letter_counts wSASSY wMESAS (by decide) (by decide)).2 's'⟩

/-- The list of feedback patterns the candidate answers produce against a
guess (the insertion stream of the `buckets` dict of
`server.py::_entropy_for_guess`, lines 172-175). -/
def patternList (guess : Wd) (answers : List Wd) : List (List Fb) :=
  answers.map (pattern guess)

/-- `server.py::_entropy_for_guess` (lines 166-184): `(H, expected_remaining)`
for a guess against the candidate answers.  The `buckets` dict is modelled by
the set of realised patterns (`toFinset`) with `List.count` as bucket size;
the `cnt > 0` guard of the source is vacuous because every realised pattern
has a positive count.  Floats are modelled as reals. -/
noncomputable def entropy_for_guess (guess : Wd) (answers : List Wd) : ℝ × ℝ :=
  if answers.length = 0 then (0, 0)
  else
    (∑ p ∈ (patternList guess answers).toFinset,
        -(((patternList guess answers).count p : ℝ) / answers.length *
          Real.logb 2 (((patternList guess answers).count p : ℝ) / answers.length)),
     ∑ p ∈ (patternList guess answers).toFinset,
        ((patternList guess answers).count p : ℝ) / answers.length *
          ((patternList guess answers).count p : ℝ))

/-- Spec formula (section 4.3): `entropyBits = -Σ p·log2(p)` over nonempty
buckets, with `p = c/n`. -/
noncomputable def entropyBits_spec (guess : Wd) (answers : List Wd) : ℝ :=
  -∑ p ∈ (patternList guess answers).toFinset,
      ((patternList guess answers).count p : ℝ) / answers.length *
        Real.logb 2 (((patternList guess answers).count p : ℝ) / answers.length)

/-- Spec formula (section 4.3): `expectedRemaining = Σ c²/n`. -/
noncomputable def expectedRemaining_spec (guess : Wd) (answers : List Wd) : ℝ :=
  ∑ p ∈ (patternList guess answers).toFinset,
      ((patternList guess answers).count p : ℝ) ^ 2 / answers.length

/-- Claim C4: the entropy scorer returns exactly the spec's pair
`(-Σ p·log2 p, Σ c²/n)` over the pattern partition, returns `(0, 0)` on an
empty candidate list, and its value depends only on the multiset of
candidates, not their order. -/
theorem c4_entropy_scorer_spec_formulas (guess : Wd) (answers answers2 : List Wd)
    (hperm : answers.Perm answers2) :
    entropy_for_guess guess [] = (0, 0) ∧
    (entropy_for_guess guess answers).1 = entropyBits_spec guess answers ∧
    (entropy_for_guess guess answers).2 = expectedRemaining_spec guess answers ∧
    entropy_for_guess guess answers = entropy_for_guess guess answers2 := by
  refine ⟨by simp [entropy_for_guess], ?_, ?_, ?_⟩
  · by_cases h : answers.length = 0
    · rw [List.length_eq_zero] at h
      subst h
      simp [entropy_for_guess, entropyBits_spec, patternList]
    · simp only [entropy_for_guess, if_neg h, entropyBits_spec]
      rw [← Finset.sum_neg_distrib]
  · by_cases h : answers.length = 0
    · rw [List.length_eq_zero] at h
      subst h
      simp [entropy_for_guess, expectedRemaining_spec, patternList]
    · simp only [entropy_for_guess, if_neg h, expectedRemaining_spec]
      refine Finset.sum_congr rfl fun p _ => ?_
      ring
  · have hlen := hperm.length_eq
    have hpl : (patternList guess answers).Perm (patternList guess answers2) :=
      hperm.map (pattern guess)
    have hfin : (patternList guess answers).toFinset =
        (patternList guess answers2).toFinset :=
      List.toFinset_eq_of_perm _ _ hpl
    simp only [entropy_for_guess, hlen, hfin]
    by_cases h : answers2.length = 0
    · simp [h]
    · simp only [if_neg h]
      have hc : ∀ q : List Fb,
          (patternList guess answers).count q = (patternList guess answers2).count q :=
        fun q => hpl.countP_eq _
      congr 1 <;> exact Finset.sum_congr rfl fun p hp => by rw [hc p]

/-- Witness for C4: the scorer vanishes on the empty candidate list, and is
invariant under swapping two concrete candidates. -/
theorem c4_entropy_scorer_spec_formulas_witness :
    entropy_for_guess wCRATE [] = (0, 0) ∧
    entropy_for_guess wCRATE [wCRATE, wCRANE] =
      entropy_for_guess wCRATE [wCRANE, wCRATE] :=
  ⟨(c4_entropy_scorer_spec_formulas wCRATE [wCRATE, wCRANE] [wCRANE, wCRATE]
      (List.Perm.swap wCRANE wCRATE [])).1,
   (c4_entropy_scorer_spec_formulas wCRATE [wCRATE, wCRANE] [wCRANE, wCRATE]
      (List.Perm.swap wCRANE wCRATE [])).2.2.2⟩

/-- The second pass emits one symbol per zipped position. -/
theorem secondPass_length (l : List (Char × Char)) (rem : Char → Nat) :
    (secondPass l rem).length = l.length := by
  induction l generalizing rem with
  | nil => simp [secondPass]
  | cons hd tl ih =>
    obtain ⟨gi, ai⟩ := hd
    by_cases h : gi = ai
    · simp [secondPass, h, ih]
    · by_cases h2 : 0 < rem gi <;> simp [secondPass, h, h2, ih]

/-- A pattern has as many symbols as the shorter of the two words. -/
theorem pattern_length (g a : Wd) : (pattern g a).length = min g.length a.length := by
  rw [pattern, secondPass_length, List.length_zip]

/-- Counts of the distinct elements of a list of patterns sum to its
length. -/
theorem sum_count_toFinsetFb (l : List (List Fb)) :
    ∑ p ∈ l.toFinset, l.count p = l.length := by
  induction l with
  | nil => simp
  | cons hd tl ih =>
    have hcons : ∀ p : List Fb,
        (hd :: tl).count p = tl.count p + if p = hd then 1 else 0 := by
      intro p
      by_cases h : p = hd
      · subst h
        simp [List.count_cons]
      · simp [List.count_cons, h]
    simp only [hcons]
    rw [Finset.sum_add_distrib]
    have hhd : hd ∈ (hd :: tl).toFinset := by simp
    rw [Finset.sum_ite_eq' ((hd :: tl).toFinset) hd fun _ => 1, if_pos hhd]
    by_cases h : hd ∈ tl
    · have h1 : (hd :: tl).toFinset = tl.toFinset := by
        simp [List.toFinset_cons, Finset.insert_eq_self.mpr (List.mem_toFinset.mpr h)]
      rw [h1, ih]
      simp
    · have h1 : (hd :: tl).toFinset = insert hd tl.toFinset := by simp
      have h2 : hd ∉ tl.toFinset := fun hc => h (List.mem_toFinset.mp hc)
      rw [h1, Finset.sum_insert h2]
      have h0 : tl.count hd = 0 := List.count_eq_zero.mpr h
      rw [h0, ih]
      simp

/-- Bucket sizes sum to the number of candidate answers. -/
theorem patternList_sum_count (g : Wd) (answers : List Wd) :
    ∑ p ∈ (patternList g answers).toFinset, (patternList g answers).count p =
      answers.length := by
  rw [sum_count_toFinsetFb]
  simp [patternList]

/-- Realised buckets are nonempty. -/
theorem patternList_count_pos (g : Wd) (answers : List Wd) (p : List Fb)
    (hp : p ∈ (patternList g answers).toFinset) :
    0 < (patternList g answers).count p :=
  List.count_pos_iff.mpr (List.mem_toFinset.mp hp)

/-- Bucket sizes never exceed the number of candidate answers. -/
theorem patternList_count_le (g : Wd) (answers : List Wd) (p : List Fb) :
    (patternList g answers).count p ≤ answers.length := by
  have h := List.count_le_length p (patternList g answers)
  simpa [patternList] using h

/-- Bucket probabilities sum to one. -/
theorem patternList_sum_prob (g : Wd) (answers : List Wd)
    (hn : answers.length ≠ 0) :
    ∑ p ∈ (patternList g answers).toFinset,
        ((patternList g answers).count p : ℝ) / answers.length = 1 := by
  rw [← Finset.sum_div]
  rw [div_eq_one_iff_eq (by exact_mod_cast hn)]
  exact_mod_cast patternList_sum_count g answers

/-- The entropy reported by the scorer is nonnegative. -/
theorem entropy_nonneg (g : Wd) (answers : List Wd) :
    0 ≤ (entropy_for_guess g answers).1 := by
  by_cases hn : answers.length = 0
  · simp [entropy_for_guess, hn]
  · have hnpos : (0 : ℝ) < answers.length :=
      by exact_mod_cast Nat.pos_of_ne_zero hn
    simp only [entropy_for_guess, if_neg hn]
    refine Finset.sum_nonneg fun p hp => ?_
    have hq0 : 0 ≤ ((patternList g answers).count p : ℝ) / answers.length :=
      div_nonneg (Nat.cast_nonneg _) hnpos.le
    have hq1 : ((patternList g answers).count p : ℝ) / answers.length ≤ 1 := by
      rw [div_le_one hnpos]
      exact_mod_cast patternList_count_le g answers p
    have hlog : Real.logb 2
        (((patternList g answers).count p : ℝ) / answers.length) ≤ 0 :=
      Real.logb_nonpos (by norm_num) hq0 hq1
    have := mul_nonpos_iff.mpr (Or.inr ⟨hlog, hq0⟩)
    nlinarith [this]

/-- Jensen step: the scorer's entropy is at most the base-2 logarithm of the
number of realised buckets. -/
theorem entropy_le_logb_card (g : Wd) (answers : List Wd)
    (hn : answers.length ≠ 0) :
    (entropy_for_guess g answers).1 ≤
      Real.logb 2 ((patternList g answers).toFinset.card) := by
  have hnpos : (0 : ℝ) < answers.length := by exact_mod_cast Nat.pos_of_ne_zero hn
  have hqpos : ∀ p ∈ (patternList g answers).toFinset,
      0 < ((patternList g answers).count p : ℝ) / answers.length := fun p hp =>
    div_pos (by exact_mod_cast patternList_count_pos g answers p hp) hnpos
  have hjen := (strictConcaveOn_log_Ioi.concaveOn).le_map_sum
    (t := (patternList g answers).toFinset)
    (w := fun p => ((patternList g answers).count p : ℝ) / answers.length)
    (p := fun p => (((patternList g answers).count p : ℝ) / answers.length)⁻¹)
    (fun p hp => (hqpos p hp).le)
    (patternList_sum_prob g answers hn)
    (fun p hp => Set.mem_Ioi.mpr (inv_pos.mpr (hqpos p hp)))
  have hsum_inv : ∑ p ∈ (patternList g answers).toFinset,
      (((patternList g answers).count p : ℝ) / answers.length) •
        (((patternList g answers).count p : ℝ) / answers.length)⁻¹ =
      ((patternList g answers).toFinset.card : ℝ) := by
    have hone : ∀ p ∈ (patternList g answers).toFinset,
        (((patternList g answers).count p : ℝ) / answers.length) •
          (((patternList g answers).count p : ℝ) / answers.length)⁻¹ = (1 : ℝ) := by
      intro p hp
      rw [smul_eq_mul, mul_inv_cancel₀ (ne_of_gt (hqpos p hp))]
    rw [Finset.sum_congr rfl hone]
    simp
  rw [hsum_inv] at hjen
  simp only [entropy_for_guess, if_neg hn]
  have hterm : ∀ p ∈ (patternList g answers).toFinset,
      -(((patternList g answers).count p : ℝ) / answers.length *
        Real.logb 2 (((patternList g answers).count p : ℝ) / answers.length)) =
      ((((patternList g answers).count p : ℝ) / answers.length) •
        Real.log ((((patternList g answers).count p : ℝ) / answers.length)⁻¹)) /
        Real.log 2 := by
    intro p hp
    rw [smul_eq_mul, Real.log_inv, Real.logb]
    ring
  rw [Finset.sum_congr rfl hterm, ← Finset.sum_div, Real.logb]
  exact (div_le_div_iff_of_pos_right (Real.log_pos (by norm_num))).mpr hjen

/-- The realised patterns of 5-letter words form at most `3^5 = 243` distinct
values. -/
theorem toFinset_card_le_243 (pl : List (List Fb)) (h5 : ∀ p ∈ pl, p.length = 5) :
    pl.toFinset.card ≤ 243 := by
  have hinj : Set.InjOn (fun l : List Fb => fun i : Fin 5 => l.getD i Fb.K)
      ↑pl.toFinset := by
    intro p1 h1 p2 h2 heq
    have hl1 : p1.length = 5 := h5 p1 (List.mem_toFinset.mp h1)
    have hl2 : p2.length = 5 := h5 p2 (List.mem_toFinset.mp h2)
    apply List.ext_getElem (by rw [hl1, hl2])
    intro i hi1 hi2
    have hi5 : i < 5 := by omega
    have hfi := congrFun heq ⟨i, hi5⟩
    simpa [List.getD_eq_getElem?_getD, List.getElem?_eq_getElem, hl1 ▸ hi5,
      hl2 ▸ hi5] using hfi
  have hmap : ∀ p ∈ pl.toFinset,
      (fun i : Fin 5 => p.getD i Fb.K) ∈ (Finset.univ : Finset (Fin 5 → Fb)) :=
    fun _ _ => Finset.mem_univ _
  have hcard := Finset.card_le_card_of_injOn _ hmap hinj
  have huniv : (Finset.univ : Finset (Fin 5 → Fb)).card = 243 := by
    rw [Finset.card_univ, Fintype.card_fun, Fintype.card_fin]
    rfl
  omega

/-- Each entropy summand is nonnegative (per-bucket version used for the
vanishing characterisation). -/
theorem bucket_term_nonneg (g : Wd) (answers : List Wd) (hn : answers.length ≠ 0)
    (p : List Fb) (_hp : p ∈ (patternList g answers).toFinset) :
    0 ≤ -(((patternList g answers).count p : ℝ) / answers.length *
      Real.logb 2 (((patternList g answers).count p : ℝ) / answers.length)) := by
  have hnpos : (0 : ℝ) < answers.length := by exact_mod_cast Nat.pos_of_ne_zero hn
  have hq0 : 0 ≤ ((patternList g answers).count p : ℝ) / answers.length :=
    div_nonneg (Nat.cast_nonneg _) hnpos.le
  have hq1 : ((patternList g answers).count p : ℝ) / answers.length ≤ 1 := by
    rw [div_le_one hnpos]
    exact_mod_cast patternList_count_le g answers p
  have hlog : Real.logb 2
      (((patternList g answers).count p : ℝ) / answers.length) ≤ 0 :=
    Real.logb_nonpos (by norm_num) hq0 hq1
  nlinarith [mul_nonpos_iff.mpr (Or.inr ⟨hlog, hq0⟩)]

/-- The scorer's entropy vanishes exactly when all candidates fall into one
bucket. -/
theorem entropy_eq_zero_iff (g : Wd) (answers : List Wd) :
    (entropy_for_guess g answers).1 = 0 ↔
      ∀ a ∈ answers, ∀ b ∈ answers, pattern g a = pattern g b := by
  by_cases hn : answers.length = 0
  · rw [List.length_eq_zero] at hn
    subst hn
    simp [entropy_for_guess]
  · have hnpos : (0 : ℝ) < answers.length := by exact_mod_cast Nat.pos_of_ne_zero hn
    have hplen : (patternList g answers).length = answers.length := by
      simp [patternList]
    simp only [entropy_for_guess, if_neg hn]
    constructor
    · intro h0
      have hterm0 := (Finset.sum_eq_zero_iff_of_nonneg
        (fun p hp => bucket_term_nonneg g answers hn p hp)).mp h0
      have hcnt : ∀ p ∈ (patternList g answers).toFinset,
          (patternList g answers).count p = answers.length := by
        intro p hp
        have ht := hterm0 p hp
        rw [neg_eq_zero, mul_eq_zero] at ht
        have hqpos : 0 < ((patternList g answers).count p : ℝ) / answers.length :=
          div_pos (by exact_mod_cast patternList_count_pos g answers p hp) hnpos
        rcases ht with hq | hlog
        · exact absurd hq (ne_of_gt hqpos)
        · rw [Real.logb, div_eq_zero_iff] at hlog
          rcases hlog with hlog | h2
          · rcases Real.log_eq_zero.mp hlog with h | h | h
            · exact absurd h (ne_of_gt hqpos)
            · have : ((patternList g answers).count p : ℝ) = answers.length := by
                field_simp at h
                exact_mod_cast h
              exact_mod_cast this
            · exact absurd h (by nlinarith)
          · exact absurd h2 (by
              have := Real.log_pos (show (1:ℝ) < 2 by norm_num)
              linarith)
      intro a ha b hb
      have hpa : pattern g a ∈ patternList g answers :=
        List.mem_map.mpr ⟨a, ha, rfl⟩
      have hpb : pattern g b ∈ patternList g answers :=
        List.mem_map.mpr ⟨b, hb, rfl⟩
      have hfull : (patternList g answers).count (pattern g a) =
          (patternList g answers).length := by
        rw [hplen]
        exact hcnt (pattern g a) (List.mem_toFinset.mpr hpa)
      exact List.count_eq_length.mp hfull (pattern g b) hpb
    · intro hsame
      obtain ⟨w, rest, rfl⟩ :
          ∃ w rest, answers = w :: rest := by
        cases answers with
        | nil => exact absurd rfl hn
        | cons w rest => exact ⟨w, rest, rfl⟩
      have hall : ∀ y ∈ patternList g (w :: rest), pattern g w = y := by
        intro y hy
        obtain ⟨b, hb, rfl⟩ := List.mem_map.mp hy
        exact hsame w (List.mem_cons_self w rest) b hb
      have hsingle : (patternList g (w :: rest)).toFinset = {pattern g w} := by
        ext q
        simp only [List.mem_toFinset, Finset.mem_singleton]
        constructor
        · intro hq
          exact (hall q hq).symm
        · intro hq
          subst hq
          exact List.mem_map.mpr ⟨w, List.mem_cons_self w rest, rfl⟩
      have hcnt : (patternList g (w :: rest)).count (pattern g w) =
          (w :: rest).length := by
        rw [← hplen]
        exact List.count_eq_length.mpr hall
      rw [hsingle, Finset.sum_singleton, hcnt]
      have hne : ((w :: rest).length : ℝ) ≠ 0 := ne_of_gt hnpos
      rw [div_self hne]
      simp

/-- Claim C5: for a 5-letter guess and 5-letter candidates, the scorer's
entropy lies in `[0, log2 (min 243 n)]` and vanishes exactly when every
candidate produces the same pattern against the guess. -/
theorem c5_entropy_bounds (g : Wd) (answers : List Wd) (hg : g.length = 5)
    (ha : ∀ w ∈ answers, w.length = 5) :
    0 ≤ (entropy_for_guess g answers).1 ∧
    (entropy_for_guess g answers).1 ≤
      Real.logb 2 ((min 243 answers.length : ℕ) : ℝ) ∧
    ((entropy_for_guess g answers).1 = 0 ↔
      ∀ a ∈ answers, ∀ b ∈ answers, pattern g a = pattern g b) := by
  refine ⟨entropy_nonneg g answers, ?_, entropy_eq_zero_iff g answers⟩
  by_cases hn : answers.length = 0
  · rw [List.length_eq_zero] at hn
    subst hn
    simp [entropy_for_guess, Real.logb]
  · have hcard_n : (patternList g answers).toFinset.card ≤ answers.length := by
      have h1 := List.toFinset_card_le (l := patternList g answers)
      simpa [patternList] using h1
    have hcard_243 : (patternList g answers).toFinset.card ≤ 243 := by
      apply toFinset_card_le_243
      intro p hp
      obtain ⟨b, hb, rfl⟩ := List.mem_map.mp hp
      rw [pattern_length, hg, ha b hb]
      simp
    have hmin : (patternList g answers).toFinset.card ≤ min 243 answers.length :=
      le_min hcard_243 hcard_n
    have hcardpos : 0 < (patternList g answers).toFinset.card := by
      rw [Finset.card_pos]
      obtain ⟨w, rest, rfl⟩ : ∃ w rest, answers = w :: rest := by
        cases answers with
        | nil => exact absurd rfl hn
        | cons w rest => exact ⟨w, rest, rfl⟩
      exact ⟨pattern g w, by simp [patternList]⟩
    calc (entropy_for_guess g answers).1
        ≤ Real.logb 2 ((patternList g answers).toFinset.card) :=
          entropy_le_logb_card g answers hn
      _ ≤ Real.logb 2 ((min 243 answers.length : ℕ) : ℝ) := by
          apply Real.logb_le_logb_of_le (by norm_num)
            (by exact_mod_cast hcardpos)
          exact_mod_cast hmin

/-- Witness for C5 at a singleton candidate list. -/
theorem c5_entropy_bounds_witness :
    0 ≤ (entropy_for_guess wCRATE [wCRANE]).1 ∧
    (entropy_for_guess wCRATE [wCRANE]).1 ≤
      Real.logb 2 ((min 243 ([wCRANE] : List Wd).length : ℕ) : ℝ) ∧
    ((entropy_for_guess wCRATE [wCRANE]).1 = 0 ↔
      ∀ a ∈ ([wCRANE] : List Wd), ∀ b ∈ ([wCRANE] : List Wd),
        pattern wCRATE a = pattern wCRATE b) :=
  c5_entropy_bounds wCRATE [wCRANE] (by decide) (by decide)

/-- Python slice `answers[::step]`: every `step`-th element starting at index
0 (the deterministic even-stride subsample of `_best_by_entropy`,
line 200). -/
def everyNth : List Wd → Nat → List Wd
  | [], _ => []
  | a :: rest, step => a :: everyNth (rest.drop (step - 1)) step
termination_by l _ => l.length
decreasing_by
  simp only [List.length_drop, List.length_cons]
  omega

/-- Python `l[:limit] if limit else l`: a `None` (or falsy `0`) limit keeps
the whole list (`_best_by_entropy` line 202, `_get_diverse_words`
line 235). -/
def takeLimit {α : Type} (limit : Option Nat) (l : List α) : List α :=
  match limit with
  | none => l
  | some k => if k = 0 then l else l.take k

/-- Sort order of `_best_by_entropy` (line 210): Python ascending order of
the key `(-bits, expected_remaining)`, i.e. entropy bits descending with
expected remaining ascending as tie-break. -/
def scoreLE (x y : Wd × ℝ × ℝ) : Prop :=
  y.2.1 < x.2.1 ∨ (x.2.1 = y.2.1 ∧ x.2.2 ≤ y.2.2)

noncomputable instance : DecidableRel scoreLE := fun x y => by
  unfold scoreLE
  infer_instance

instance : IsTotal (Wd × ℝ × ℝ) scoreLE where
  total := by
    intro x y
    rcases lt_trichotomy x.2.1 y.2.1 with h | h | h
    · exact Or.inr (Or.inl h)
    · rcases le_total x.2.2 y.2.2 with h2 | h2
      · exact Or.inl (Or.inr ⟨h, h2⟩)
      · exact Or.inr (Or.inr ⟨h.symm, h2⟩)
    · exact Or.inl (Or.inl h)

instance : IsTrans (Wd × ℝ × ℝ) scoreLE where
  trans := by
    intro x y z hxy hyz
    rcases hxy with h1 | ⟨h1, h1'⟩ <;> rcases hyz with h2 | ⟨h2, h2'⟩
    · exact Or.inl (h2.trans h1)
    · exact Or.inl (by rw [← h2]; exact h1)
    · exact Or.inl (by rw [h1]; exact h2)
    · exact Or.inr ⟨h1.trans h2, h1'.trans h2'⟩

/-- `server.py::_best_by_entropy` (lines 186-211): empty result when pool or
answers is empty; otherwise optionally subsample the answers with an even
stride, optionally cap the pool, score every pool word with the entropy
scorer, stable-sort by entropy descending / expected remaining ascending and
keep the first `top_k` entries.  Python's stable `list.sort` is modelled by
the (also stable) `List.insertionSort`. -/
noncomputable def best_by_entropy (guess_pool answers : List Wd) (top_k : Nat)
    (sample_answers limit_guess_pool : Option Nat) : List (Wd × ℝ × ℝ) :=
  if guess_pool = [] ∨ answers = [] then []
  else
    let answers_eval :=
      match sample_answers with
      | some s =>
        if 0 < s ∧ s < answers.length then
          (everyNth answers (max 1 (answers.length / s))).take s
        else answers
      | none => answers
    let pool := takeLimit limit_guess_pool guess_pool
    (List.insertionSort scoreLE
      (pool.map fun w => (w, entropy_for_guess w answers_eval))).take top_k

/-- Members of a limited list are members of the full list. -/
theorem takeLimit_subset {α : Type} (limit : Option Nat) (l : List α) (x : α)
    (hx : x ∈ takeLimit limit l) : x ∈ l := by
  cases limit with
  | none => exact hx
  | some k =>
    by_cases h : k = 0
    · simpa [takeLimit, h] using hx
    · simp only [takeLimit, if_neg h] at hx
      exact List.mem_of_mem_take hx

/-- Claim C6: the ranking returns at most `top_k` scored guesses, sorted by
entropy bits descending with ties broken by expected remaining ascending,
each scored word drawn from the pool, and returns the empty sequence whenever
the pool or the candidate list is empty. -/
theorem c6_rank_sorted_topk (guess_pool answers : List Wd) (top_k : Nat)
    (sample_answers limit_guess_pool : Option Nat) :
    (best_by_entropy guess_pool answers top_k sample_answers
        limit_guess_pool).length ≤ top_k ∧
    (best_by_entropy guess_pool answers top_k sample_answers
        limit_guess_pool).Sorted scoreLE ∧
    (∀ x ∈ best_by_entropy guess_pool answers top_k sample_answers
        limit_guess_pool, x.1 ∈ guess_pool) ∧
    (guess_pool = [] ∨ answers = [] →
      best_by_entropy guess_pool answers top_k sample_answers
        limit_guess_pool = []) := by
  by_cases hguard : guess_pool = [] ∨ answers = []
  · simp [best_by_entropy, hguard]
  · refine ⟨?_, ?_, ?_, fun h => absurd h hguard⟩
    · simp only [best_by_entropy, if_neg hguard]
      exact List.length_take_le _ _
    · simp only [best_by_entropy, if_neg hguard]
      exact (List.sorted_insertionSort scoreLE _).sublist (List.take_sublist _ _)
    · intro x hx
      simp only [best_by_entropy, if_neg hguard] at hx
      have hx2 := List.mem_of_mem_take hx
      rw [List.mem_insertionSort] at hx2
      obtain ⟨w, hw, rfl⟩ := List.mem_map.mp hx2
      exact takeLimit_subset limit_guess_pool guess_pool w hw

/-- Witness for C6: empty pool and empty candidate list give the empty
ranking, and a `top_k` of 1 caps the result length. -/
theorem c6_rank_sorted_topk_witness :
    best_by_entropy [] [wCRANE] 5 none none = [] ∧
    best_by_entropy [wCRATE] [] 5 none none = [] ∧
    (best_by_entropy [wCRATE, wCRANE] [wCRANE] 1 none none).length ≤ 1 :=
  ⟨(c6_rank_sorted_topk [] [wCRANE] 5 none none).2.2.2 (Or.inl rfl),
   (c6_rank_sorted_topk [wCRATE] [] 5 none none).2.2.2 (Or.inr rfl),
   (c6_rank_sorted_topk [wCRATE, wCRANE] [wCRANE] 1 none none).1⟩

/-- Letter frequency across the candidate set (`_get_diverse_words` lines
219-222): each letter is counted once per candidate word containing it,
regardless of repetition inside that word. -/
def letter_freq (candidates : List Wd) (c : Char) : Nat :=
  candidates.countP (fun w => decide (c ∈ w))

/-- Diversity score of a pool word (`_get_diverse_words` lines 226-231):
`(distinct letters)×2 + (Σ over the distinct letters of the word of the
candidate letter frequency) / |candidates|`; for an empty candidate list the
Python conditional expression yields just the distinct-letter count (that
case sits behind the nonempty guard). -/
def diversity_score (candidates : List Wd) (w : Wd) : ℚ :=
  if candidates = [] then (w.dedup.length : ℚ)
  else (w.dedup.length : ℚ) * 2 +
    (((w.dedup.map (letter_freq candidates)).sum : ℕ) : ℚ) / (candidates.length : ℚ)

/-- The diversity formula as the spec states it (section 4.5): score a pool
word as `2×(distinct letters) + (sum of per-letter candidate-frequency) /
|candidates|`, the candidate frequency counting each letter once per
candidate word. -/
def diversity_score_spec (candidates : List Wd) (w : Wd) : ℚ :=
  2 * (w.dedup.length : ℚ) +
    (w.dedup.map fun c => ((candidates.countP (fun v => decide (c ∈ v)) : ℕ) : ℚ)).sum /
      (candidates.length : ℚ)

/-- Sort order used by `_get_diverse_words` (line 234): score descending
(Python ascending order of the key `-score`). -/
def diverseLE (x y : Wd × ℚ) : Prop := y.2 ≤ x.2

instance : DecidableRel diverseLE := fun x y => inferInstanceAs (Decidable (y.2 ≤ x.2))

instance : IsTotal (Wd × ℚ) diverseLE where
  total := fun x y => le_total y.2 x.2

instance : IsTrans (Wd × ℚ) diverseLE where
  trans := fun _ _ _ hxy hyz => le_trans hyz hxy

/-- `server.py::_get_diverse_words` (lines 213-237): score every pool word by
the diversity heuristic, stable-sort by score descending, and keep the
top-scoring words up to the optional (falsy-able) limit; with an empty pool
or empty candidate list the pool is returned unchanged. -/
def get_diverse_words (words candidates : List Wd) (limit : Option Nat) : List Wd :=
  if words = [] ∨ candidates = [] then words
  else
    (takeLimit limit
      (List.insertionSort diverseLE
        (words.map fun w => (w, diversity_score candidates w)))).map Prod.fst

/-- Casting a sum of naturals over a mapped list into the rationals. -/
theorem cast_sum_map (l : List Char) (f : Char → Nat) :
    (((l.map f).sum : ℕ) : ℚ) = (l.map fun c => ((f c : ℕ) : ℚ)).sum := by
  induction l with
  | nil => simp
  | cons hd tl ih => simp [ih]

/-- Claim C8: the early-phase diversity score of a pool word equals the
spec formula `2×(distinct letters) + (Σ per-letter candidate frequency) /
|candidates|`, and the evaluation pool built by `_get_diverse_words` is the
pool words with the highest such scores up to the optional limit: drawn from
the pool, sorted by score descending, every kept word scoring at least as
high as every dropped pool word, with the pool size capped by the limit. -/
theorem c8_diversity_pool (words candidates : List Wd) (limit : Option Nat)
    (hw : words ≠ []) (hc : candidates ≠ []) :
    (∀ w : Wd, diversity_score candidates w = diversity_score_spec candidates w) ∧
    (get_diverse_words words candidates limit).Sorted
      (fun a b => diversity_score candidates b ≤ diversity_score candidates a) ∧
    (∀ w ∈ get_diverse_words words candidates limit, w ∈ words) ∧
    (∀ w ∈ get_diverse_words words candidates limit, ∀ v ∈ words,
      v ∉ get_diverse_words words candidates limit →
      diversity_score candidates v ≤ diversity_score candidates w) ∧
    ((limit = none ∨ limit = some 0) →
      (get_diverse_words words candidates limit).length = words.length) ∧
    (∀ k : Nat, limit = some k → 0 < k →
      (get_diverse_words words candidates limit).length = min k words.length) := by
  have hguard : ¬(words = [] ∨ candidates = []) := by
    rintro (h | h)
    · exact hw h
    · exact hc h
  have hperm : (List.insertionSort diverseLE
      (words.map fun w => (w, diversity_score candidates w))).Perm
      (words.map fun w => (w, diversity_score candidates w)) :=
    List.perm_insertionSort _ _
  have hsortSorted : (List.insertionSort diverseLE
      (words.map fun w => (w, diversity_score candidates w))).Sorted diverseLE :=
    List.sorted_insertionSort _ _
  have hshape : ∀ x ∈ List.insertionSort diverseLE
      (words.map fun w => (w, diversity_score candidates w)),
      x.2 = diversity_score candidates x.1 := by
    intro x hx
    have hx2 := (List.mem_insertionSort diverseLE).mp hx
    obtain ⟨u, _, rfl⟩ := List.mem_map.mp hx2
    rfl
  have hgd : get_diverse_words words candidates limit =
      (takeLimit limit (List.insertionSort diverseLE
        (words.map fun w => (w, diversity_score candidates w)))).map Prod.fst := by
    simp only [get_diverse_words, if_neg hguard]
  refine ⟨?_, ?_, ?_, ?_, ?_, ?_⟩
  · intro w
    simp only [diversity_score, diversity_score_spec, if_neg hc]
    rw [cast_sum_map]
    simp only [letter_freq]
    ring
  · rw [hgd]
    have htake : (takeLimit limit (List.insertionSort diverseLE
        (words.map fun w => (w, diversity_score candidates w)))).Sorted diverseLE := by
      cases limit with
      | none => exact hsortSorted
      | some k =>
        by_cases hk : k = 0
        · simpa [takeLimit, hk] using hsortSorted
        · simp only [takeLimit, if_neg hk]
          exact hsortSorted.sublist (List.take_sublist _ _)
    rw [List.Sorted, List.pairwise_map]
    refine htake.imp_of_mem ?_
    intro a b ha hb hab
    have ha' := hshape a (takeLimit_subset limit _ a ha)
    have hb' := hshape b (takeLimit_subset limit _ b hb)
    simp only [diverseLE] at hab
    rw [ha', hb'] at hab
    exact hab
  · intro w hwmem
    rw [hgd] at hwmem
    obtain ⟨x, hx, rfl⟩ := List.mem_map.mp hwmem
    have hx2 := takeLimit_subset limit _ x hx
    have hx3 := (List.mem_insertionSort diverseLE).mp hx2
    obtain ⟨u, hu, rfl⟩ := List.mem_map.mp hx3
    exact hu
  · intro w hwmem v hv hvnot
    rw [hgd] at hwmem hvnot
    have hvsort : (v, diversity_score candidates v) ∈ List.insertionSort diverseLE
        (words.map fun w => (w, diversity_score candidates w)) := by
      rw [List.mem_insertionSort]
      exact List.mem_map.mpr ⟨v, hv, rfl⟩
    cases limit with
    | none =>
      exact absurd (List.mem_map.mpr ⟨(v, diversity_score candidates v), hvsort, rfl⟩)
        hvnot
    | some k =>
      by_cases hk : k = 0
      · refine absurd (List.mem_map.mpr ⟨(v, diversity_score candidates v), ?_, rfl⟩)
          hvnot
        simpa [takeLimit, hk] using hvsort
      · simp only [takeLimit, if_neg hk] at hwmem hvnot
        obtain ⟨x, hx, rfl⟩ := List.mem_map.mp hwmem
        have hxs := hshape x (List.mem_of_mem_take hx)
        have hvdrop : (v, diversity_score candidates v) ∈
            (List.insertionSort diverseLE
              (words.map fun w => (w, diversity_score candidates w))).drop k := by
          have hsplit := List.take_append_drop k (List.insertionSort diverseLE
            (words.map fun w => (w, diversity_score candidates w)))
          rw [← hsplit] at hvsort
          rcases List.mem_append.mp hvsort with hmem | hmem
          · exact absurd (List.mem_map.mpr ⟨_, hmem, rfl⟩) hvnot
          · exact hmem
        have hrel := hsortSorted.rel_of_mem_take_of_mem_drop hx hvdrop
        simp only [diverseLE] at hrel
        rw [hxs] at hrel
        exact hrel
  · intro hnl
    rw [hgd, List.length_map]
    have hlen : (List.insertionSort diverseLE
        (words.map fun w => (w, diversity_score candidates w))).length =
        words.length := by
      rw [hperm.length_eq, List.length_map]
    rcases hnl with h | h <;> subst h <;> simp [takeLimit, hlen]
  · intro k hk hkpos
    subst hk
    rw [hgd, List.length_map]
    have hlen : (List.insertionSort diverseLE
        (words.map fun w => (w, diversity_score candidates w))).length =
        words.length := by
      rw [hperm.length_eq, List.length_map]
    simp only [takeLimit, if_neg (Nat.pos_iff_ne_zero.mp hkpos)]
    rw [List.length_take, hlen]

/-- Witness for C8 at a concrete pool and candidate list with limit 1. -/
theorem c8_diversity_pool_witness :
    diversity_score [wCRANE] wCRATE = diversity_score_spec [wCRANE] wCRATE ∧
    (∀ w ∈ get_diverse_words [wCRATE, wCRANE] [wCRANE] (some 1),
      w ∈ ([wCRATE, wCRANE] : List Wd)) ∧
    (get_diverse_words [wCRATE, wCRANE] [wCRANE] (some 1)).length =
      min 1 ([wCRATE, wCRANE] : List Wd).length :=
  ⟨(c8_diversity_pool [wCRATE, wCRANE] [wCRANE] (some 1) (by simp) (by simp)).1 wCRATE,
   (c8_diversity_pool [wCRATE, wCRANE] [wCRANE] (some 1) (by simp) (by simp)).2.2.1,
   (c8_diversity_pool [wCRATE, wCRANE] [wCRANE] (some 1) (by simp) (by simp)).2.2.2.2.2
     1 rfl (by norm_num)⟩

/-- Python `str.strip`: drop leading and trailing whitespace. -/
def stripPy (s : List Char) : List Char :=
  ((s.dropWhile Char.isWhitespace).reverse.dropWhile Char.isWhitespace).reverse

/-- `server.py::_norm` (lines 45-49): strip, lowercase, keep only the letters
a-z, and demand exactly 5 of them (otherwise the empty word).  The
`unidecode` accent folding is modelled as the identity (the source itself
falls back to the identity when the library is missing). -/
def norm (s : List Char) : List Char :=
  let w := ((stripPy s).map Char.toLower).filter fun c => decide ('a' ≤ c ∧ c ≤ 'z')
  if w.length = 5 then w else []

/-- `ALPHA_RE` (line 43): exactly five letters a-z. -/
def alphaMatch (s : List Char) : Bool :=
  s.length == 5 && s.all fun c => decide ('a' ≤ c ∧ c ≤ 'z')

/-- The three feedback codes as symbols. -/
def symOfChar : Char → Option Fb :=
  fun c =>
    if c = 'G' then some Fb.G
    else if c = 'Y' then some Fb.Y
    else if c = 'K' then some Fb.K
    else none

/-- A symbol back to its code letter. -/
def charOfFb : Fb → Char
  | Fb.G => 'G'
  | Fb.Y => 'Y'
  | Fb.K => 'K'

/-- `_EMOJI_TO_CODE` (lines 133-138): the pictographic encoding. -/
def emojiToCode (c : Char) : Char :=
  if c = '🟩' then 'G'
  else if c = '🟨' then 'Y'
  else if c = '⬛' then 'K'
  else if c = '⬜' then 'K'
  else c

/-- `server.py::_coerce_feedback` (lines 140-149): uppercase the stripped
input; accept five G/Y/K codes directly, otherwise map the pictographic
encoding onto codes and re-check; anything else is the `InvalidFeedback`
failure, modelled as `none`. -/
def coerce_feedback (s : List Char) : Option (List Fb) :=
  let u := (stripPy s).map Char.toUpper
  match u.mapM symOfChar with
  | some fb => if fb.length = 5 then some fb else none
  | none =>
    match (u.map emojiToCode).mapM symOfChar with
    | some fb => if fb.length = 5 then some fb else none
    | none => none

/-- `server.py::SessionState` (lines 51-56).  The language tag plays no role
in any claim and is omitted; history entries hold the normalised guess and
the coerced feedback that the source appends. -/
structure SessionState where
  candidates : List Wd
  guess_pool : List Wd
  history : List (Wd × List Fb)
deriving DecidableEq, Repr

/-- The two validation failures of `server.py::apply_feedback`. -/
inductive ApplyError : Type
  | invalidGuess : ApplyError
  | invalidFeedback : ApplyError
deriving DecidableEq, Repr

/-- Result payload of `server.py::apply_feedback` (lines 368-374). -/
structure ApplyResult where
  guess : Wd
  feedback : List Fb
  candidates_before : Nat
  candidates_after : Nat
  narrowed : Nat
deriving DecidableEq, Repr

/-- `server.py::apply_feedback` (lines 347-374): normalise and validate the
guess (`InvalidGuess` on failure), coerce the feedback (`InvalidFeedback` on
failure), then filter the candidates and append the history entry.  A raise
happens before any mutation, so the state component is returned unchanged on
error.  The second coercion the source performs inside `_filter_by_feedback`
is the identity on the already-coerced feedback. -/
def apply_feedback (st : SessionState) (guess feedback : List Char) :
    Except ApplyError ApplyResult × SessionState :=
  let g := norm guess
  if ¬ alphaMatch g then (Except.error ApplyError.invalidGuess, st)
  else
    match coerce_feedback feedback with
    | none => (Except.error ApplyError.invalidFeedback, st)
    | some fb =>
      let newCands := filterByPattern st.candidates g fb
      (Except.ok ⟨g, fb, st.candidates.length, newCands.length,
          st.candidates.length - newCands.length⟩,
        { st with candidates := newCands, history := st.history ++ [(g, fb)] })

/-- Per-connection state of the JSON-RPC server
`src/mcp_server/server.py::handle_request`. -/
structure McpState where
  candidates : List Wd
  history : List (Wd × List Char)
deriving DecidableEq, Repr

/-- `src/mcp_server/server.py::handle_request`, method `apply_feedback`
(lines 121-133): strip/lowercase the guess, strip/uppercase the feedback,
reject unless the guess has 5 characters and the feedback is 5 G/Y/K codes
(JSON-RPC error, state unchanged); otherwise filter the candidates through
the engine (string comparison of the pattern against the feedback) and
append the history entry with the uppercased guess. -/
def mcp_apply_feedback (st : McpState) (guess feedback : List Char) :
    Except Unit (Nat × List Wd) × McpState :=
  let g := (stripPy guess).map Char.toLower
  let fb := (stripPy feedback).map Char.toUpper
  if ¬(g.length = 5 ∧ fb.length = 5 ∧ ∀ c ∈ fb, c = 'G' ∨ c = 'Y' ∨ c = 'K')
  then (Except.error (), st)
  else
    let newCands :=
      st.candidates.filter fun w => decide ((pattern_for_guess g w).map charOfFb = fb)
    (Except.ok (newCands.length, newCands.take 10),
      { st with candidates := newCands,
                history := st.history ++ [(g.map Char.toUpper, fb)] })

/-- Claim C10: feedback application is atomic on error — when validation
fails (`InvalidGuess` or `InvalidFeedback` in `server.py::apply_feedback`;
the JSON-RPC parameter error in `src/mcp_server/server.py`), the session's
candidate set and history are left exactly as they were before the call. -/
theorem c10_apply_feedback_atomic (st : SessionState) (guess feedback : List Char)
    (e : ApplyError) (st2 : McpState) (g2 f2 : List Char) :
    ((apply_feedback st guess feedback).1 = Except.error e →
      (apply_feedback st guess feedback).2 = st) ∧
    ((mcp_apply_feedback st2 g2 f2).1 = Except.error () →
      (mcp_apply_feedback st2 g2 f2).2 = st2) := by
  constructor
  · intro he
    by_cases h1 : alphaMatch (norm guess)
    · cases hcf : coerce_feedback feedback with
      | none => simp [apply_feedback, h1, hcf]
      | some fb =>
        exfalso
        simp [apply_feedback, h1, hcf] at he
    · simp [apply_feedback, h1]
  · intro he
    by_cases h1 : ((stripPy g2).map Char.toLower).length = 5 ∧
        ((stripPy f2).map Char.toUpper).length = 5 ∧
        ∀ c ∈ (stripPy f2).map Char.toUpper, c = 'G' ∨ c = 'Y' ∨ c = 'K'
    · exfalso
      simp only [mcp_apply_feedback, if_neg (not_not_intro h1)] at he
      exact Except.noConfusion he
    · simp only [mcp_apply_feedback]
      rw [if_pos h1]

/-- Witness for C10: a two-letter guess fails `InvalidGuess` and leaves the
state untouched; a feedback of five X characters fails the JSON-RPC
validation and leaves the state untouched. -/
theorem c10_apply_feedback_atomic_witness :
    (apply_feedback ⟨[wCRANE], [wCRANE], []⟩ ['a', 'b']
        ['G', 'G', 'G', 'G', 'G']).1 = Except.error ApplyError.invalidGuess ∧
    (apply_feedback ⟨[wCRANE], [wCRANE], []⟩ ['a', 'b']
        ['G', 'G', 'G', 'G', 'G']).2 = ⟨[wCRANE], [wCRANE], []⟩ ∧
    (mcp_apply_feedback ⟨[wCRANE], []⟩ wCRANE ['X', 'X', 'X', 'X', 'X']).1 =
        Except.error () ∧
    (mcp_apply_feedback ⟨[wCRANE], []⟩ wCRANE ['X', 'X', 'X', 'X', 'X']).2 =
        ⟨[wCRANE], []⟩ :=
  ⟨by rfl,
   (c10_apply_feedback_atomic ⟨[wCRANE], [wCRANE], []⟩ ['a', 'b']
      ['G', 'G', 'G', 'G', 'G'] ApplyError.invalidGuess ⟨[wCRANE], []⟩ wCRANE
      ['X', 'X', 'X', 'X', 'X']).1 (by rfl),
   by rfl,
   (c10_apply_feedback_atomic ⟨[wCRANE], [wCRANE], []⟩ ['a', 'b']
      ['G', 'G', 'G', 'G', 'G'] ApplyError.invalidGuess ⟨[wCRANE], []⟩ wCRANE
      ['X', 'X', 'X', 'X', 'X']).2 (by rfl)⟩

/-- Game phase (`suggest_guess` line 399).  The source's string `"end"` is a
Lean keyword and is spelled `endgame` here. -/
inductive Phase : Type
  | early : Phase
  | mid : Phase
  | endgame : Phase
deriving DecidableEq, Repr

/-- One model of Python `list(set(l))` (`suggest_guess` line 432): the
distinct elements in first-occurrence order.  CPython's set iteration order
is unspecified (hash dependent), so properties that must not depend on the
order are stated over `suggest_core_with` for every admissible enumeration
(`SetOrderModel`); `pySetList` is the concrete order used by the executable
program model `suggest_core`. -/
def pySetList : List Wd → List Wd
  | [] => []
  | a :: rest => a :: pySetList (rest.filter fun b => decide (¬ b = a))
termination_by l => l.length
decreasing_by
  have := List.length_filter_le (fun b => decide (¬ b = a)) rest
  simp only [List.length_cons]
  omega

/-- `server.py::_rerank_suggestions` (lines 239-259): in the end phase with
at most 5 candidates and at least one scored guess that is itself a
candidate, the candidate suggestions come first, both halves re-sorted by
the same entropy-descending key; in every other case the scored order is
kept.  The `attempts` parameter is unused, as in the source. -/
noncomputable def rerank_suggestions (scored : List (Wd × ℝ × ℝ))
    (candidates : List Wd) (phase : Phase) (_attempts : Nat) :
    List (Wd × ℝ × ℝ) :=
  if phase = Phase.endgame ∧ candidates.length ≤ 5 then
    let cs := scored.filter fun x => decide (x.1 ∈ candidates)
    let ns := scored.filter fun x => decide (¬ x.1 ∈ candidates)
    if cs = [] then scored
    else List.insertionSort scoreLE cs ++ List.insertionSort scoreLE ns
  else scored

/-- Per-position letter counts of `_analyze_remaining_candidates` (lines
275-278): how many candidate words carry letter `c` at position `i`. -/
def position_count (candidates : List Wd) (i : Nat) (c : Char) : Nat :=
  candidates.countP fun w => decide (w.get? i = some c)

/-- The distinct letters occurring at position `i` (insertion order of the
per-position dict, modelled as first occurrence). -/
def position_letters (candidates : List Wd) (i : Nat) : List Char :=
  (candidates.filterMap fun w => w.get? i).dedup

/-- Shannon entropy of the letter distribution at position `i` (lines
281-287). -/
noncomputable def position_entropy (candidates : List Wd) (i : Nat) : ℝ :=
  let total : ℝ := ((candidates.filterMap fun w => w.get? i).length : ℝ)
  Neg.neg ((position_letters candidates i).map fun c =>
      (position_count candidates i c : ℝ) / total *
        Real.logb 2 ((position_count candidates i c : ℝ) / total)).sum

/-- First letter attaining the maximal count at a position (Python `max`
keeps the first maximal dict entry; dict order modelled as first
occurrence). -/
def argmax_letter (candidates : List Wd) (i : Nat) : Option Char :=
  match position_letters candidates i with
  | [] => none
  | h :: t =>
    some (t.foldl
      (fun best c =>
        if position_count candidates i best < position_count candidates i c then c
        else best) h)

/-- Count-descending order on letter/count pairs (line 317). -/
def cntGE (x y : Char × Nat) : Prop := y.2 ≤ x.2

instance : DecidableRel cntGE := fun x y => inferInstanceAs (Decidable (y.2 ≤ x.2))

/-- The top-3 letters by count at a position (line 317), stable sort by
count descending. -/
def top_letters (candidates : List Wd) (i : Nat) : List (Char × Nat) :=
  (List.insertionSort cntGE
    ((position_letters candidates i).map fun c =>
      (c, position_count candidates i c))).take 3

/-- Entropy-ascending order on indexed positions (line 298). -/
def posLE (x y : Nat × ℝ) : Prop := x.2 ≤ y.2

noncomputable instance : DecidableRel posLE := fun x y =>
  inferInstanceAs (Decidable (x.2 ≤ y.2))

/-- Tagged result of `server.py::_analyze_remaining_candidates` (lines
261-320): the count, the single remaining candidate when there is exactly
one, the literal list when at most 20 remain, and the most determined /
most uncertain positions past their thresholds.  Prose `message` fields are
omitted; the reported probability is unrounded. -/
structure CandidatesAnalysis where
  count : Nat
  final_answer : Option Wd
  candidates_list : Option (List Wd)
  most_likely_position : Option (Nat × Char × ℚ)
  most_uncertain_position : Option (Nat × Nat × List (Char × Nat))

/-- `server.py::_analyze_remaining_candidates` (lines 261-320). -/
noncomputable def analyze_remaining_candidates (candidates : List Wd) :
    CandidatesAnalysis :=
  let n := candidates.length
  if n = 0 then ⟨0, none, none, none, none⟩
  else if n = 1 then ⟨1, candidates.head?, none, none, none⟩
  else
    let listOpt := if n ≤ 20 then some (candidates.take 20) else none
    let posEnt := ((List.range 5).filter
        fun i => decide (position_letters candidates i ≠ [])).map
      fun i => (i, position_entropy candidates i)
    let sortedPos := List.insertionSort posLE posEnt
    let mostLikely :=
      match sortedPos.head? with
      | none => none
      | some md =>
        if md.2 < 1 then
          match argmax_letter candidates md.1 with
          | none => none
          | some c =>
            some (md.1 + 1, c, ((position_count candidates md.1 c : ℚ) / (n : ℚ)))
        else none
    let mostUncertain :=
      if 1 < sortedPos.length then
        match sortedPos.getLast? with
        | none => none
        | some ld =>
          if 2 < ld.2 then
            some (ld.1 + 1, (position_letters candidates ld.1).length,
              top_letters candidates ld.1)
          else none
      else none
    ⟨n, none, listOpt, mostLikely, mostUncertain⟩

/-- The two failure modes of `server.py::suggest_guess` (lines 388 and
445). -/
inductive SuggestError : Type
  | noCandidates : SuggestError
  | noGuesses : SuggestError
deriving DecidableEq, Repr

/-- Result of `server.py::suggest_guess` (lines 477-500).  The prose
`explanation` and the display rounding of the scores are not modelled. -/
structure SuggestResult where
  game_phase : Phase
  attempts : Nat
  candidates : Nat
  best : Wd × ℝ × ℝ
  best_is_candidate : Bool
  alternatives : List ((Wd × ℝ × ℝ) × Bool)
  candidates_analysis : CandidatesAnalysis
  history : List (Wd × List Fb)

/-- `server.py::suggest_guess` (lines 376-506) as a pure function of the
session state: empty candidates fail `NoCandidates`; the phase is early
(≤ 1 round), mid (2-3) or end (> 3); the approximation thresholds activate
answer sampling above 1000 candidates and pool capping above 2000 pool
words; the early phase evaluates the diversity pool, the end phase with at
most 10 candidates evaluates candidates plus the top-10 high-entropy words;
the scored list is reranked by phase and truncated to `top_k`.  The final
`[]` match arm is unreachable (a nonempty scored list forces `top_k ≥ 1`).
The function is parameterized by `pySet`, the enumeration the Python
expression `list(set(...))` produces at line 432, whose order CPython does
not specify. -/
noncomputable def suggest_core_with (pySet : List Wd → List Wd)
    (st : SessionState) (top_k : Nat)
    (approx_when_large : Bool) : Except SuggestError SuggestResult :=
  let n := st.candidates.length
  if n = 0 then Except.error SuggestError.noCandidates
  else
    let attempts := st.history.length
    let phase := if attempts ≤ 1 then Phase.early
      else if attempts ≤ 3 then Phase.mid else Phase.endgame
    let sample_answers := if approx_when_large ∧ 1000 < n
      then some (min 2000 (max 500 (n / 2))) else none
    let limit_guesses := if approx_when_large ∧ 2000 < st.guess_pool.length
      then some (min 3000 (max 1000 (st.guess_pool.length / 2))) else none
    let pool_to_use :=
      if phase = Phase.early then
        get_diverse_words st.guess_pool st.candidates limit_guesses
      else if phase = Phase.endgame ∧ n ≤ 10 then
        let candidate_guesses :=
          st.candidates.filter fun w => decide (w ∈ st.guess_pool)
        if candidate_guesses = [] then st.guess_pool
        else
          let top_entropy := best_by_entropy (st.guess_pool.take 500) st.candidates
            10 sample_answers none
          pySet (candidate_guesses ++ top_entropy.map fun x => x.1)
      else st.guess_pool
    let scored := best_by_entropy pool_to_use st.candidates (min (top_k * 2) 20)
      sample_answers limit_guesses
    if scored = [] then Except.error SuggestError.noGuesses
    else
      let final := (rerank_suggestions scored st.candidates phase attempts).take top_k
      match final with
      | [] => Except.error SuggestError.noGuesses
      | b :: _ =>
        Except.ok
          { game_phase := phase
            attempts := attempts
            candidates := n
            best := b
            best_is_candidate := decide (b.1 ∈ st.candidates)
            alternatives := final.map fun x => (x, decide (x.1 ∈ st.candidates))
            candidates_analysis := analyze_remaining_candidates st.candidates
            history := st.history }

/-- The contract of `list(set(l))`: the returned list enumerates exactly the
distinct elements of `l`, in some order. -/
def SetOrderModel (pySet : List Wd → List Wd) : Prop :=
  ∀ l : List Wd, (pySet l).Nodup ∧ ∀ x : Wd, x ∈ pySet l ↔ x ∈ l

/-- `server.py::suggest_guess` as the executable program model: the set
enumeration is instantiated with the first-occurrence order `pySetList`. -/
noncomputable def suggest_core (st : SessionState) (top_k : Nat)
    (approx_when_large : Bool) : Except SuggestError SuggestResult :=
  suggest_core_with pySetList st top_k approx_when_large

/-- `suggest_guess` as the session-level operation: the source reads the
session state but never assigns to its fields, so the returned state is the
input state. -/
noncomputable def suggest_guess (st : SessionState) (top_k : Nat)
    (approx_when_large : Bool) :
    Except SuggestError SuggestResult × SessionState :=
  (suggest_core st top_k approx_when_large, st)

/-- Claim C2: whenever a session's candidate set is empty, suggestion fails
with the `NoCandidates` error reported to the caller instead of returning a
normal suggestion result, and the state is unchanged. -/
theorem c2_suggest_empty_fails (st : SessionState) (top_k : Nat) (approx : Bool)
    (hempty : st.candidates = []) :
    suggest_guess st top_k approx = (Except.error SuggestError.noCandidates, st) := by
  have hn : st.candidates.length = 0 := by rw [hempty]; rfl
  simp [suggest_guess, suggest_core, suggest_core_with, hn]

/-- Witness for C2: a concrete empty-candidate session. -/
theorem c2_suggest_empty_fails_witness :
    suggest_guess ⟨[], [wCRANE], []⟩ 5 true =
      (Except.error SuggestError.noCandidates, ⟨[], [wCRANE], []⟩) :=
  c2_suggest_empty_fails ⟨[], [wCRANE], []⟩ 5 true rfl

/-- Claim C9: suggestion is idempotent for a fixed session state — two
invocations with the same session state and arguments return equal results,
and neither invocation changes the session's candidates, guess pool or
history (the embedding threads the state unchanged because the source only
reads it). -/
theorem c9_suggest_idempotent_pure (st : SessionState) (top_k : Nat) (approx : Bool) :
    (suggest_guess st top_k approx).2 = st ∧
    (suggest_guess ((suggest_guess st top_k approx).2) top_k approx).1 =
      (suggest_guess st top_k approx).1 ∧
    (suggest_guess ((suggest_guess st top_k approx).2) top_k approx).2 = st :=
  ⟨rfl, rfl, rfl⟩

/-- Against a single candidate every guess scores `(0, 1)`: one bucket of
probability one. -/
theorem entropy_single (g w : Wd) : entropy_for_guess g [w] = (0, 1) := by
  have h1 : patternList g [w] = [pattern g w] := rfl
  simp [entropy_for_guess, h1]

/-- A stable sort leaves a list whose keys all tie unchanged. -/
theorem insertionSort_const_key (l : List (Wd × ℝ × ℝ))
    (hl : ∀ x ∈ l, x.2 = ((0 : ℝ), (1 : ℝ))) :
    List.insertionSort scoreLE l = l := by
  induction l with
  | nil => rfl
  | cons hd tl ih =>
    rw [List.insertionSort,
      ih fun x hx => hl x (List.mem_cons_of_mem hd hx)]
    cases tl with
    | nil => rfl
    | cons b t =>
      have h1 := hl hd (List.mem_cons_self hd (b :: t))
      have h2 := hl b (List.mem_cons_of_mem hd (List.mem_cons_self b t))
      have hle : scoreLE hd b := by
        refine Or.inr ⟨?_, ?_⟩
        · rw [h1, h2]
        · rw [h1, h2]
      rw [List.orderedInsert, if_pos hle]

/-- Evaluation of the ranking against a single candidate: pool capping, then
constant scores `(0, 1)`, then the (trivial) stable sort, then `take`. -/
theorem best_by_entropy_single (pool : List Wd) (w : Wd) (k : Nat)
    (s lim : Option Nat) :
    best_by_entropy pool [w] k s lim =
      ((takeLimit lim pool).map fun x => (x, (0 : ℝ), (1 : ℝ))).take k := by
  by_cases hp : pool = []
  · subst hp
    simp [best_by_entropy, takeLimit]
    cases lim with
    | none => simp
    | some L => by_cases hL : L = 0 <;> simp [hL]
  · have hguard : ¬(pool = [] ∨ ([w] : List Wd) = []) := by simp [hp]
    have hmap : ∀ pool2 : List Wd,
        (pool2.map fun x => (x, entropy_for_guess x [w])) =
          pool2.map fun x => (x, (0 : ℝ), (1 : ℝ)) := by
      intro pool2
      refine List.map_congr_left fun x _ => ?_
      rw [entropy_single]
    have hsorted : ∀ pool2 : List Wd,
        List.insertionSort scoreLE (pool2.map fun x => (x, (0 : ℝ), (1 : ℝ))) =
          pool2.map fun x => (x, (0 : ℝ), (1 : ℝ)) := by
      intro pool2
      refine insertionSort_const_key _ fun x hx => ?_
      obtain ⟨u, _, rfl⟩ := List.mem_map.mp hx
      rfl
    cases s with
    | none =>
      simp only [best_by_entropy, if_neg hguard, hmap, hsorted]
    | some ss =>
      have hcond : ¬(0 < ss ∧ ss < ([w] : List Wd).length) := by
        simp only [List.length_singleton]
        omega
      simp only [best_by_entropy, if_neg hguard, hcond, if_false, hmap, hsorted]

/-- Unfolding equation of `pySetList` on a cons cell. -/
theorem pySetList_cons (a : Wd) (l : List Wd) :
    pySetList (a :: l) = a :: pySetList (l.filter fun b => decide (¬ b = a)) := by
  rw [pySetList]

/-- The set model only returns elements of its input. -/
theorem pySetList_subset (l : List Wd) : ∀ x ∈ pySetList l, x ∈ l := by
  match l with
  | [] => simp [pySetList]
  | a :: rest =>
    intro x hx
    rw [pySetList_cons] at hx
    rcases List.mem_cons.mp hx with rfl | hx2
    · exact List.mem_cons_self _ _
    · have hmem := pySetList_subset (rest.filter fun b => decide (¬ b = a)) x hx2
      exact List.mem_cons_of_mem _ (List.mem_of_mem_filter hmem)
termination_by l.length
decreasing_by
  have := List.length_filter_le (fun b => decide (¬ b = a)) rest
  simp only [List.length_cons]
  omega

/-- Capping a cons cell with any limit keeps the head and a sublist of the
tail. -/
theorem takeLimit_cons (lim : Option Nat) (a : Wd) (l : List Wd) :
    ∃ l2 : List Wd, takeLimit lim (a :: l) = a :: l2 ∧ ∀ x ∈ l2, x ∈ l := by
  cases lim with
  | none => exact ⟨l, rfl, fun x hx => hx⟩
  | some L =>
    by_cases hL : L = 0
    · exact ⟨l, by simp [takeLimit, hL], fun x hx => hx⟩
    · obtain ⟨L2, rfl⟩ : ∃ L2, L = L2 + 1 := ⟨L - 1, by omega⟩
      refine ⟨l.take L2, ?_, fun x hx => List.mem_of_mem_take hx⟩
      simp [takeLimit]


/-- Every element of the input occurs in the set model. -/
theorem pySetList_mem (l : List Wd) : ∀ x : Wd, x ∈ l → x ∈ pySetList l := by
  match l with
  | [] =>
    intro x hx
    exact absurd hx (List.not_mem_nil x)
  | a :: rest =>
    intro x hx
    rw [pySetList_cons]
    by_cases hxa : x = a
    · subst hxa
      exact List.mem_cons_self _ _
    · rcases List.mem_cons.mp hx with rfl | hx2
      · exact absurd rfl hxa
      · refine List.mem_cons_of_mem _ ?_
        exact pySetList_mem (rest.filter fun b => decide (¬ b = a)) x
          (List.mem_filter.mpr ⟨hx2, by simp [hxa]⟩)
termination_by l.length
decreasing_by
  have := List.length_filter_le (fun b => decide (¬ b = a)) rest
  simp only [List.length_cons]
  omega

/-- The set model has no duplicates. -/
theorem pySetList_nodup (l : List Wd) : (pySetList l).Nodup := by
  match l with
  | [] => simp [pySetList]
  | a :: rest =>
    rw [pySetList_cons, List.nodup_cons]
    refine ⟨?_, pySetList_nodup (rest.filter fun b => decide (¬ b = a))⟩
    intro hmem
    have h1 := pySetList_subset _ a hmem
    have h2 := (List.mem_filter.mp h1).2
    simp at h2
termination_by l.length
decreasing_by
  have := List.length_filter_le (fun b => decide (¬ b = a)) rest
  simp only [List.length_cons]
  omega

/-- On a duplicate-free list the first-occurrence set model is the
identity. -/
theorem pySetList_of_nodup (l : List Wd) (h : l.Nodup) : pySetList l = l := by
  match l with
  | [] => simp [pySetList]
  | a :: rest =>
    rw [pySetList_cons]
    rw [List.nodup_cons] at h
    have hfilt : rest.filter (fun b => decide (¬ b = a)) = rest := by
      rw [List.filter_eq_self]
      intro x hx
      simp only [decide_eq_true_eq]
      intro hxa
      exact h.1 (hxa ▸ hx)
    rw [hfilt, pySetList_of_nodup rest h.2]
termination_by l.length
decreasing_by
  simp only [List.length_cons]
  omega

/-- The first-occurrence order satisfies the `list(set(...))` contract. -/
theorem setOrderModel_pySetList : SetOrderModel pySetList := fun l =>
  ⟨pySetList_nodup l, fun x => ⟨pySetList_subset l x, pySetList_mem l x⟩⟩

/-- In a duplicate-free list that contains `w`, filtering for membership in
`[w]` leaves exactly `[w]`. -/
theorem filter_eq_singleton_of_nodup (l : List Wd) (w : Wd) (h1 : l.Nodup)
    (h2 : w ∈ l) : l.filter (fun x => decide (x ∈ [w])) = [w] := by
  induction l with
  | nil => exact absurd h2 (List.not_mem_nil w)
  | cons a t ih =>
    rw [List.nodup_cons] at h1
    rcases List.mem_cons.mp h2 with rfl | hw
    · have htl : t.filter (fun x => decide (x ∈ [w])) = [] := by
        rw [List.filter_eq_nil_iff]
        intro x hx
        simp only [List.mem_singleton, decide_eq_true_eq]
        intro hxw
        exact h1.1 (hxw ▸ hx)
      rw [List.filter_cons, if_pos (show decide (w ∈ [w]) = true by simp), htl]
    · have hna : ¬(a ∈ [w]) := by
        simp only [List.mem_singleton]
        intro haw
        exact h1.1 (haw ▸ hw)
      rw [List.filter_cons, if_neg (by simpa using hna), ih h1.2 hw]

/-- The pool cap computed by `suggest_guess` is either absent or at least
1000, so it never truncates a list of at most 1000 words. -/
theorem takeLimit_limit_guesses (approx : Bool) (plen : Nat) (l : List Wd)
    (hl : l.length ≤ 1000) :
    takeLimit (if approx = true ∧ 2000 < plen
      then some (min 3000 (max 1000 (plen / 2))) else none) l = l := by
  by_cases h : approx = true ∧ 2000 < plen
  · rw [if_pos h]
    simp only [takeLimit]
    have h1000 : 1000 ≤ min 3000 (max 1000 (plen / 2)) :=
      le_min (by norm_num) (le_max_left _ _)
    rw [if_neg (by omega)]
    exact List.take_of_length_le (by omega)
  · rw [if_neg h]
    rfl

/-- End-game rerank when exactly the candidate suggestion `(w, 0, 1)`
survives the candidate filter: it is pulled to the head. -/
theorem rerank_candidate_first (scored : List (Wd × ℝ × ℝ)) (w : Wd) (att : Nat)
    (hcs : scored.filter (fun x => decide (x.1 ∈ [w])) = [(w, (0 : ℝ), (1 : ℝ))]) :
    ∃ N : List (Wd × ℝ × ℝ),
      rerank_suggestions scored [w] Phase.endgame att =
        (w, (0 : ℝ), (1 : ℝ)) :: N := by
  refine ⟨List.insertionSort scoreLE
    (scored.filter fun x => decide (¬ x.1 ∈ [w])), ?_⟩
  have hcond : Phase.endgame = Phase.endgame ∧ ([w] : List Wd).length ≤ 5 :=
    ⟨rfl, by simp⟩
  simp only [rerank_suggestions, if_pos hcond, hcs]
  have hne : ([(w, (0 : ℝ), (1 : ℝ))] : List (Wd × ℝ × ℝ)) ≠ [] := by simp
  rw [if_neg hne]
  rfl

/-- The best word of a suggestion outcome, `none` on failure. -/
def bestWordOf (r : Except SuggestError SuggestResult) : Option Wd :=
  match r with
  | Except.ok res => some res.best.1
  | Except.error _ => none

/-- Claim C7 (amended): with exactly one remaining candidate `w` that is in
the guess pool, the candidate analysis always flags `w` as the final answer;
and in the end phase (more than 3 feedback rounds) with `top_k ≥ 6` — so
that the `min (2·top_k) 20` truncation cannot drop the candidate from the
at-most-11-word end-game pool — the suggestion's best guess equals `w`, for
every admissible enumeration order of Python's `set` and in particular for
the program model.  In the early and mid phases, and for small `top_k` under
an adverse set order, the best guess can differ from `w` (see the
counterexample theorem). -/
theorem c7_single_candidate_endgame (st : SessionState) (w : Wd) (top_k : Nat)
    (approx : Bool) (hc : st.candidates = [w]) (hp : w ∈ st.guess_pool) :
    (analyze_remaining_candidates st.candidates).final_answer = some w ∧
    (3 < st.history.length → 6 ≤ top_k →
      (∀ pySet : List Wd → List Wd, SetOrderModel pySet →
        bestWordOf (suggest_core_with pySet st top_k approx) = some w) ∧
      bestWordOf (suggest_core st top_k approx) = some w) := by
  obtain ⟨cands, pool, hist⟩ := st
  dsimp only at hc hp ⊢
  subst hc
  constructor
  · simp [analyze_remaining_candidates]
  · intro hhist hk
    have hgen : ∀ pySet : List Wd → List Wd, SetOrderModel pySet →
        bestWordOf (suggest_core_with pySet ⟨[w], pool, hist⟩ top_k approx) =
          some w := by
      intro pySet hset
      have hph1 : ¬(hist.length ≤ 1) := by omega
      have hph2 : ¬(hist.length ≤ 3) := by omega
      have hn0 : ¬(([w] : List Wd).length = 0) := by simp
      have hsamp : ¬(approx = true ∧ 1000 < ([w] : List Wd).length) := by simp
      have hpe : ¬(Phase.endgame = Phase.early) := by simp
      have h10 : ([w] : List Wd).length ≤ 10 := by simp
      have hcg : ([w] : List Wd).filter (fun x => decide (x ∈ pool)) = [w] := by
        simp [hp]
      have hcgne : ¬(([w] : List Wd) = []) := by simp
      have hTlen : ((best_by_entropy (pool.take 500) [w] 10 none none).map
          (fun x => x.1)).length ≤ 10 := by
        rw [List.length_map, best_by_entropy_single]
        exact List.length_take_le _ _
      have hsetL := hset ([w] ++ ((best_by_entropy (pool.take 500) [w] 10 none
        none).map fun x => x.1))
      have hwP : w ∈ pySet ([w] ++ ((best_by_entropy (pool.take 500) [w] 10 none
          none).map fun x => x.1)) :=
        (hsetL.2 w).mpr (List.mem_append.mpr (Or.inl (List.mem_singleton_self w)))
      have hPsub : pySet ([w] ++ ((best_by_entropy (pool.take 500) [w] 10 none
          none).map fun x => x.1)) ⊆
          ([w] ++ ((best_by_entropy (pool.take 500) [w] 10 none
            none).map fun x => x.1)) :=
        fun x hx => (hsetL.2 x).mp hx
      have hPlen : (pySet ([w] ++ ((best_by_entropy (pool.take 500) [w] 10 none
          none).map fun x => x.1))).length ≤ 11 := by
        have h1 := (List.subperm_of_subset hsetL.1 hPsub).length_le
        have h2 : (([w] ++ ((best_by_entropy (pool.take 500) [w] 10 none
            none).map fun x => x.1)) : List Wd).length =
            1 + ((best_by_entropy (pool.take 500) [w] 10 none
              none).map fun x => x.1).length := by
          simp [Nat.add_comm]
        omega
      have hsc : best_by_entropy (pySet ([w] ++ ((best_by_entropy (pool.take 500)
          [w] 10 none none).map fun x => x.1))) [w] (min (top_k * 2) 20) none
          (if approx = true ∧ 2000 < pool.length
            then some (min 3000 (max 1000 (pool.length / 2))) else none) =
          (pySet ([w] ++ ((best_by_entropy (pool.take 500) [w] 10 none
            none).map fun x => x.1))).map fun x => (x, (0 : ℝ), (1 : ℝ)) := by
        rw [best_by_entropy_single,
          takeLimit_limit_guesses approx pool.length _ (by omega),
          List.take_of_length_le (by rw [List.length_map]; omega)]
      have hscne : ¬((pySet ([w] ++ ((best_by_entropy (pool.take 500) [w] 10 none
          none).map fun x => x.1))).map (fun x => (x, (0 : ℝ), (1 : ℝ))) = []) := by
        intro hEq
        have hlen := congrArg List.length hEq
        simp only [List.length_map, List.length_nil] at hlen
        rw [List.length_eq_zero.mp hlen] at hwP
        exact absurd hwP (List.not_mem_nil w)
      have hfiltP := filter_eq_singleton_of_nodup
        (pySet ([w] ++ ((best_by_entropy (pool.take 500) [w] 10 none
          none).map fun x => x.1))) w hsetL.1 hwP
      have hcs : ((pySet ([w] ++ ((best_by_entropy (pool.take 500) [w] 10 none
          none).map fun x => x.1))).map (fun x => (x, (0 : ℝ), (1 : ℝ)))).filter
          (fun x => decide (x.1 ∈ [w])) = [(w, (0 : ℝ), (1 : ℝ))] := by
        rw [List.filter_map]
        have hfilt2 : (pySet ([w] ++ ((best_by_entropy (pool.take 500) [w] 10 none
            none).map fun x => x.1))).filter
            ((fun x : Wd × ℝ × ℝ => decide (x.1 ∈ [w])) ∘
              fun x => (x, (0 : ℝ), (1 : ℝ))) = [w] := hfiltP
        rw [hfilt2]
        rfl
      obtain ⟨N, hrr⟩ := rerank_candidate_first
        ((pySet ([w] ++ ((best_by_entropy (pool.take 500) [w] 10 none
          none).map fun x => x.1))).map fun x => (x, (0 : ℝ), (1 : ℝ)))
        w hist.length hcs
      obtain ⟨k2, hk2⟩ : ∃ k2, top_k = k2 + 1 := ⟨top_k - 1, by omega⟩
      simp only [suggest_core_with, if_neg hn0, if_neg hph1, if_neg hph2,
        if_neg hsamp, if_neg hpe, true_and, hcg, if_neg hcgne]
      simp only [if_pos h10, hsc, if_neg hscne, hrr]
      rw [hk2, List.take_succ_cons]
      simp [bestWordOf]
    exact ⟨hgen, hgen pySetList setOrderModel_pySetList⟩

/-- The all-`a` word used in the counterexamples. -/
def wAAAAA : Wd := ['a', 'a', 'a', 'a', 'a']

/-- A five-distinct-letter word that beats `wAAAAA` on diversity. -/
def wABCDE : Wd := ['a', 'b', 'c', 'd', 'e']

/-- A history of four feedback rounds, putting the game in the end phase. -/
def hist4 : List (Wd × List Fb) :=
  [(wCRATE, [Fb.K, Fb.K, Fb.K, Fb.K, Fb.K]),
   (wCRATE, [Fb.K, Fb.K, Fb.K, Fb.K, Fb.K]),
   (wCRATE, [Fb.K, Fb.K, Fb.K, Fb.K, Fb.K]),
   (wCRATE, [Fb.K, Fb.K, Fb.K, Fb.K, Fb.K])]

/-- Ten distinct pool words other than `wAAAAA`. -/
def pool10 : List Wd :=
  [['b', 'a', 'a', 'a', 'a'], ['c', 'a', 'a', 'a', 'a'],
   ['d', 'a', 'a', 'a', 'a'], ['e', 'a', 'a', 'a', 'a'],
   ['f', 'a', 'a', 'a', 'a'], ['g', 'a', 'a', 'a', 'a'],
   ['h', 'a', 'a', 'a', 'a'], ['i', 'a', 'a', 'a', 'a'],
   ['j', 'a', 'a', 'a', 'a'], ['k', 'a', 'a', 'a', 'a']]

/-- The last word of `pool10`. -/
def wKAAAA : Wd := ['k', 'a', 'a', 'a', 'a']

/-- The second-to-last word of `pool10`. -/
def wJAAAA : Wd := ['j', 'a', 'a', 'a', 'a']

/-- An admissible `list(set(...))` enumeration in reversed first-occurrence
order, as CPython's unspecified hash order may produce. -/
def pySetRev (l : List Wd) : List Wd := (pySetList l).reverse

/-- The reversed order also satisfies the `list(set(...))` contract. -/
theorem setOrderModel_pySetRev : SetOrderModel pySetRev := by
  intro l
  constructor
  · exact List.nodup_reverse.mpr (pySetList_nodup l)
  · intro x
    show x ∈ (pySetList l).reverse ↔ x ∈ l
    rw [List.mem_reverse]
    exact ⟨pySetList_subset l x, pySetList_mem l x⟩

/-- Counterexample to claim C7 as stated: with exactly one remaining
candidate `wAAAAA` that is in the guess pool, (a) in the early phase the
best guess is the more diverse pool word `wABCDE`, not the candidate; and
(b) even in the end phase, with `top_k = 1` and an adverse but admissible
`set` enumeration order, the `min (2·top_k) 20` truncation cuts the
candidate from the scored list and the best guess is `wKAAAA`. -/
theorem c7_counterexample :
    ((⟨[wAAAAA], [wAAAAA, wABCDE], []⟩ : SessionState).candidates = [wAAAAA] ∧
     wAAAAA ∈ (⟨[wAAAAA], [wAAAAA, wABCDE], []⟩ : SessionState).guess_pool ∧
     bestWordOf (suggest_core ⟨[wAAAAA], [wAAAAA, wABCDE], []⟩ 5 true) =
       some wABCDE ∧
     ¬ wABCDE = wAAAAA) ∧
    (SetOrderModel pySetRev ∧
     (⟨[wAAAAA], pool10 ++ [wAAAAA], hist4⟩ : SessionState).candidates =
       [wAAAAA] ∧
     wAAAAA ∈ (⟨[wAAAAA], pool10 ++ [wAAAAA], hist4⟩ : SessionState).guess_pool ∧
     3 < (⟨[wAAAAA], pool10 ++ [wAAAAA], hist4⟩ : SessionState).history.length ∧
     bestWordOf (suggest_core_with pySetRev
       ⟨[wAAAAA], pool10 ++ [wAAAAA], hist4⟩ 1 false) = some wKAAAA ∧
     ¬ wKAAAA = wAAAAA) := by
  constructor
  · refine ⟨rfl, by simp, ?_, by decide⟩
    have hdedupA : wAAAAA.dedup = ['a'] := by decide
    have hdedupB : wABCDE.dedup = ['a', 'b', 'c', 'd', 'e'] := by decide
    have hfa : letter_freq [wAAAAA] 'a' = 1 := by decide
    have hfb : letter_freq [wAAAAA] 'b' = 0 := by decide
    have hfc : letter_freq [wAAAAA] 'c' = 0 := by decide
    have hfd : letter_freq [wAAAAA] 'd' = 0 := by decide
    have hfe : letter_freq [wAAAAA] 'e' = 0 := by decide
    have hsA : diversity_score [wAAAAA] wAAAAA = 3 := by
      simp [diversity_score, hdedupA, hfa]
      norm_num
    have hsB : diversity_score [wAAAAA] wABCDE = 11 := by
      simp [diversity_score, hdedupB, hfa, hfb, hfc, hfd, hfe]
      norm_num
    have hnoLE : ¬ diverseLE (wAAAAA, diversity_score [wAAAAA] wAAAAA)
        (wABCDE, diversity_score [wAAAAA] wABCDE) := by
      simp [diverseLE, hsA, hsB]
      norm_num
    have hguard : ¬(([wAAAAA, wABCDE] : List Wd) = [] ∨
        ([wAAAAA] : List Wd) = []) := by
      simp
    have hdiv : get_diverse_words [wAAAAA, wABCDE] [wAAAAA] none =
        [wABCDE, wAAAAA] := by
      simp only [get_diverse_words, if_neg hguard, List.map_cons, List.map_nil,
        List.insertionSort, List.orderedInsert, if_neg hnoLE, takeLimit]
    have hsc : best_by_entropy [wABCDE, wAAAAA] [wAAAAA] (min (5 * 2) 20) none
        none = [(wABCDE, (0 : ℝ), (1 : ℝ)), (wAAAAA, (0 : ℝ), (1 : ℝ))] := by
      rw [best_by_entropy_single]
      rfl
    have hrr : rerank_suggestions
        [(wABCDE, (0 : ℝ), (1 : ℝ)), (wAAAAA, (0 : ℝ), (1 : ℝ))] [wAAAAA]
        Phase.early ([] : List (Wd × List Fb)).length =
        [(wABCDE, (0 : ℝ), (1 : ℝ)), (wAAAAA, (0 : ℝ), (1 : ℝ))] := by
      simp [rerank_suggestions]
    have hn0 : ¬(([wAAAAA] : List Wd).length = 0) := by simp
    have hph1 : ([] : List (Wd × List Fb)).length ≤ 1 := by simp
    have hsamp : ¬(True ∧ 1000 < ([wAAAAA] : List Wd).length) := by simp
    have hlim : ¬(True ∧ 2000 < ([wAAAAA, wABCDE] : List Wd).length) := by simp
    have hscne : ¬([(wABCDE, (0 : ℝ), (1 : ℝ)), (wAAAAA, (0 : ℝ), (1 : ℝ))] =
        ([] : List (Wd × ℝ × ℝ))) := by simp
    simp only [suggest_core, suggest_core_with, if_neg hn0, if_pos hph1,
      eq_self_iff_true, if_true, if_neg hsamp, if_neg hlim, hdiv, hsc,
      if_neg hscne, hrr]
    simp [bestWordOf]
  · refine ⟨setOrderModel_pySetRev, rfl, by simp, by decide, ?_, by decide⟩
    have hph1Ex : ¬(hist4.length ≤ 1) := by decide
    have hph2Ex : ¬(hist4.length ≤ 3) := by decide
    have hn0Ex : ¬(([wAAAAA] : List Wd).length = 0) := by simp
    have hsampEx : ¬(false = true ∧ 1000 < ([wAAAAA] : List Wd).length) := by
      simp
    have hlimEx : ¬(false = true ∧
        2000 < ((pool10 ++ [wAAAAA]) : List Wd).length) := by
      simp
    have hpeEx : ¬(Phase.endgame = Phase.early) := by simp
    have h10Ex : ([wAAAAA] : List Wd).length ≤ 10 := by simp
    have hcgEx : ([wAAAAA] : List Wd).filter
        (fun x => decide (x ∈ pool10 ++ [wAAAAA])) = [wAAAAA] := by decide
    have hcgneEx : ¬(([wAAAAA] : List Wd) = []) := by simp
    have hTex : (best_by_entropy ((pool10 ++ [wAAAAA]).take 500) [wAAAAA] 10
        none none).map (fun x => x.1) = pool10 := by
      rw [best_by_entropy_single]
      rfl
    have hPex : pySetRev ([wAAAAA] ++ pool10) = pool10.reverse ++ [wAAAAA] := by
      show (pySetList ([wAAAAA] ++ pool10)).reverse = pool10.reverse ++ [wAAAAA]
      rw [show (([wAAAAA] ++ pool10) : List Wd) = wAAAAA :: pool10 from rfl,
        pySetList_cons,
        show pool10.filter (fun b => decide (¬ b = wAAAAA)) = pool10 from
          by decide,
        pySetList_of_nodup pool10 (by decide)]
      rfl
    have hscEx : best_by_entropy (pool10.reverse ++ [wAAAAA]) [wAAAAA]
        (min (1 * 2) 20) none none =
        [(wKAAAA, (0 : ℝ), (1 : ℝ)), (wJAAAA, (0 : ℝ), (1 : ℝ))] := by
      rw [best_by_entropy_single]
      rfl
    have hscneEx : ¬([(wKAAAA, (0 : ℝ), (1 : ℝ)), (wJAAAA, (0 : ℝ), (1 : ℝ))] =
        ([] : List (Wd × ℝ × ℝ))) := by simp
    have hcsEx : ([(wKAAAA, (0 : ℝ), (1 : ℝ)),
        (wJAAAA, (0 : ℝ), (1 : ℝ))]).filter
        (fun x => decide (x.1 ∈ ([wAAAAA] : List Wd))) = [] := by
      rw [List.filter_eq_nil_iff]
      intro x hx
      rcases List.mem_cons.mp hx with rfl | hx2
      · decide
      · rcases List.mem_cons.mp hx2 with rfl | hx3
        · decide
        · exact absurd hx3 (List.not_mem_nil x)
    have hrrEx : rerank_suggestions
        [(wKAAAA, (0 : ℝ), (1 : ℝ)), (wJAAAA, (0 : ℝ), (1 : ℝ))] [wAAAAA]
        Phase.endgame hist4.length =
        [(wKAAAA, (0 : ℝ), (1 : ℝ)), (wJAAAA, (0 : ℝ), (1 : ℝ))] := by
      have hcond : Phase.endgame = Phase.endgame ∧
          ([wAAAAA] : List Wd).length ≤ 5 := ⟨rfl, by simp⟩
      simp only [rerank_suggestions, if_pos hcond, hcsEx]
      simp
    simp only [suggest_core_with, if_neg hn0Ex, if_neg hph1Ex, if_neg hph2Ex,
      if_neg hsampEx, if_neg hlimEx, if_neg hpeEx, true_and, hcgEx,
      if_neg hcgneEx]
    simp only [if_pos h10Ex, hTex, hPex, hscEx, if_neg hscneEx, hrrEx]
    simp [bestWordOf]

/-- Concrete end-game instance of the single-candidate guarantee: one
candidate `wCRANE` left after four rounds, `top_k = 6`. -/
theorem c7_single_candidate_endgame_witness :
    (analyze_remaining_candidates
      ((⟨[wCRANE], [wCRATE, wCRANE], hist4⟩ : SessionState).candidates)).final_answer =
      some wCRANE ∧
    bestWordOf (suggest_core ⟨[wCRANE], [wCRATE, wCRANE], hist4⟩ 6 true) =
      some wCRANE :=
  ⟨(c7_single_candidate_endgame ⟨[wCRANE], [wCRATE, wCRANE], hist4⟩ wCRANE 6 true
      rfl (by decide)).1,
   ((c7_single_candidate_endgame ⟨[wCRANE], [wCRATE, wCRANE], hist4⟩ wCRANE 6 true
      rfl (by decide)).2 (by decide) (by decide)).2⟩
